import Mathlib

/-!
Shallow embedding of `group-op-timing-attack/extra/timing-attack.py`.

The script simulates a timing side-channel attack on a device whose group
operation (double-and-add / square-and-multiply) is not constant time.
Per-step timing noise is drawn from numpy's global pseudorandom generator,
which the device reseeds at explicit, data-dependent points
(`np.random.seed(m % 2**32)` on entry, `np.random.seed(res % 2**32)` after
every conditional sub-step).

The numpy generator is modelled abstractly: after `seed(s)`, the k-th
standard-normal deviate it produces is `z s k` for an arbitrary fixed
stream function `z : ℕ → ℕ → ℚ`, and `np.random.normal(mu, sigma)`
returns `mu + sigma * z s k` (exact for `sigma = 0`, where numpy returns
`mu`).  Uniform deviates of `np.random.rand()` are likewise `u s k` with
an arbitrary `u : ℕ → ℕ → ℚ`.  Real-valued timing arithmetic is carried
out exactly in `ℚ`, so every definition here is executable.
-/

namespace TimingAttack

/-- The group-operation variant chosen in `Device.__init__`
(`self.group_op = self.double_and_add`; `square_and_mul` is the commented
alternative). -/
inductive Variant
  | doubleAndAdd
  | squareAndMul
deriving DecidableEq

/-- State of the numpy global generator: the seed it was last reseeded
with and how many deviates have been drawn since. -/
structure Rng where
  seed : ℕ
  idx : ℕ
deriving DecidableEq

/-- `np.random.seed(s)` : reset the generator to seed `s`, zero draws. -/
def seedRng (s : ℕ) : Rng := ⟨s, 0⟩

/-- `np.random.normal(mu, sigma)` : one draw from the generator in state
`g`, returning the sample `mu + sigma * z g.seed g.idx` together with the
advanced generator state. -/
def normalDraw (z : ℕ → ℕ → ℚ) (mu sigma : ℚ) (g : Rng) : ℚ × Rng :=
  (mu + sigma * z g.seed g.idx, ⟨g.seed, g.idx + 1⟩)

/-- A `Device` (timing-attack.py lines 34-42): modulus `p` from the prime
table, key length, noise parameters, and the chosen group operation. -/
structure Device where
  p : ℕ
  keylen : ℕ
  mu : ℚ
  sigma : ℚ
  variant : Variant

/-- The unconditional register update of one loop step:
`res = (res * 2) % p` for double-and-add (line 52), `res = (res * res) % p`
for square-and-multiply (line 68). -/
def stepRes (v : Variant) (p res : ℕ) : ℕ :=
  match v with
  | .doubleAndAdd => res * 2 % p
  | .squareAndMul => res * res % p

/-- The conditional register update taken when `d[i] == 1`:
`res = (res + m) % p` for double-and-add (line 55), `res = (res * m) % p`
for square-and-multiply (line 71). -/
def condRes (v : Variant) (p m res : ℕ) : ℕ :=
  match v with
  | .doubleAndAdd => (res + m) % p
  | .squareAndMul => res * m % p

/-- The loop of `Device.double_and_add` / `square_and_mul`
(timing-attack.py lines 51-57 / 67-73), run from register `res` and
generator state `g` over the remaining exponent bits.  It returns the
list of noise samples drawn (in draw order; `delay` is their sum), the
final register and the final generator state.  Each step draws one sample
with the current state; when the bit is 1 the conditional update runs,
the generator is reseeded with `res % 2**32` and a second sample is
drawn. -/
def opRun (z : ℕ → ℕ → ℚ) (v : Variant) (p : ℕ) (mu sigma : ℚ) (m : ℕ) :
    List ℕ → ℕ → Rng → List ℚ × ℕ × Rng
  | [], res, g => ([], res, g)
  | b :: rest, res, g =>
    let res1 := stepRes v p res
    let d1 := normalDraw z mu sigma g
    if b = 1 then
      let res2 := condRes v p m res1
      let g2 := seedRng (res2 % 2 ^ 32)
      let d2 := normalDraw z mu sigma g2
      let out := opRun z v p mu sigma m rest res2 d2.2
      (d1.1 :: d2.1 :: out.1, out.2)
    else
      let out := opRun z v p mu sigma m rest res1 d1.2
      (d1.1 :: out.1, out.2)

/-- `Device.double_and_add(m, d)` (lines 44-58): `res = 1`, `delay = 0`,
`np.random.seed(m % 2**32)`, then the loop; returns the accumulated
delay. -/
def double_and_add (z : ℕ → ℕ → ℚ) (dev : Device) (m : ℕ) (d : List ℕ) : ℚ :=
  (opRun z Variant.doubleAndAdd dev.p dev.mu dev.sigma m d 1 (seedRng (m % 2 ^ 32))).1.sum

/-- `Device.square_and_mul(m, d)` (lines 60-74). -/
def square_and_mul (z : ℕ → ℕ → ℚ) (dev : Device) (m : ℕ) (d : List ℕ) : ℚ :=
  (opRun z Variant.squareAndMul dev.p dev.mu dev.sigma m d 1 (seedRng (m % 2 ^ 32))).1.sum

/-- `self.group_op(m, d)` : dispatch on the device's chosen variant. -/
def group_op (z : ℕ → ℕ → ℚ) (dev : Device) (m : ℕ) (d : List ℕ) : ℚ :=
  match dev.variant with
  | .doubleAndAdd => double_and_add z dev m d
  | .squareAndMul => square_and_mul z dev m d

/-- The ordered list of noise samples drawn during one `group_op` call
(the call's `delay` is `(sampleTrace ...).sum`). -/
def sampleTrace (z : ℕ → ℕ → ℚ) (dev : Device) (m : ℕ) (d : List ℕ) : List ℚ :=
  (opRun z dev.variant dev.p dev.mu dev.sigma m d 1 (seedRng (m % 2 ^ 32))).1

/-- Number of 1-bits of an exponent bit list (`d[i] == 1` tests). -/
def popcount (d : List ℕ) : ℕ := d.count 1

lemma group_op_eq_trace_sum (z : ℕ → ℕ → ℚ) (dev : Device) (m : ℕ) (d : List ℕ) :
    group_op z dev m d = (sampleTrace z dev m d).sum := by
  cases hv : dev.variant <;>
    simp [group_op, double_and_add, square_and_mul, sampleTrace, hv]

lemma opRun_length (z : ℕ → ℕ → ℚ) (v : Variant) (p : ℕ) (mu sigma : ℚ) (m : ℕ)
    (d : List ℕ) : ∀ res g,
    (opRun z v p mu sigma m d res g).1.length = d.length + popcount d := by
  induction d with
  | nil => intro res g; simp [opRun, popcount]
  | cons b rest ih =>
    intro res g
    by_cases hb : b = 1 <;>
      simp [opRun, hb, ih, popcount, List.count_cons] <;> omega

lemma opRun_sum_sigma_zero (z : ℕ → ℕ → ℚ) (v : Variant) (p : ℕ) (mu : ℚ) (m : ℕ)
    (d : List ℕ) : ∀ res g,
    (opRun z v p mu 0 m d res g).1.sum = mu * (d.length + popcount d) := by
  induction d with
  | nil => intro res g; simp [opRun, popcount]
  | cons b rest ih =>
    intro res g
    by_cases hb : b = 1 <;>
      simp [opRun, hb, ih, popcount, List.count_cons, normalDraw] <;>
      ring

lemma opRun_append (z : ℕ → ℕ → ℚ) (v : Variant) (p : ℕ) (mu sigma : ℚ) (m : ℕ)
    (xs ys : List ℕ) : ∀ res g,
    opRun z v p mu sigma m (xs ++ ys) res g =
      ((opRun z v p mu sigma m xs res g).1 ++
        (opRun z v p mu sigma m ys (opRun z v p mu sigma m xs res g).2.1
          (opRun z v p mu sigma m xs res g).2.2).1,
       (opRun z v p mu sigma m ys (opRun z v p mu sigma m xs res g).2.1
          (opRun z v p mu sigma m xs res g).2.2).2) := by
  induction xs with
  | nil => intro res g; simp [opRun]
  | cons b rest ih =>
    intro res g
    by_cases hb : b = 1 <;> simp [opRun, hb, ih]

lemma opRun_mem (z : ℕ → ℕ → ℚ) (v : Variant) (p : ℕ) (mu sigma : ℚ) (m : ℕ)
    (d : List ℕ) : ∀ res g x, x ∈ (opRun z v p mu sigma m d res g).1 →
    ∃ s n, x = mu + sigma * z s n := by
  induction d with
  | nil => intro res g x hx; simp [opRun] at hx
  | cons b rest ih =>
    intro res g x hx
    by_cases hb : b = 1
    · simp [opRun, hb, normalDraw] at hx
      rcases hx with h | h | h
      · exact ⟨g.seed, g.idx, h⟩
      · exact ⟨_, _, h⟩
      · exact ih _ _ _ h
    · simp [opRun, hb, normalDraw] at hx
      rcases hx with h | h
      · exact ⟨g.seed, g.idx, h⟩
      · exact ih _ _ _ h

/-- C1: for every modulus `p`, mean `mu`, challenge, exponent bit-vector
and variant, with `sigma = 0` the timing model's elapsed value is exactly
`mu * (len(exponentBits) + popcount(exponentBits))`: every
`Normal(mu, 0)` sample collapses to `mu`, so the delay is a mu-weighted
step count. -/
theorem group_op_sigma_zero (z : ℕ → ℕ → ℚ) (v : Variant) (p keylen : ℕ)
    (mu : ℚ) (c : ℕ) (d : List ℕ) :
    group_op z ⟨p, keylen, mu, 0, v⟩ c d = mu * (d.length + popcount d) := by
  cases v <;>
    simp [group_op, double_and_add, square_and_mul, opRun_sum_sigma_zero]

lemma sampleTrace_take_append (z : ℕ → ℕ → ℚ) (dev : Device) (c : ℕ)
    (a b : List ℕ) :
    (sampleTrace z dev c (a ++ b)).take (a.length + popcount a) =
      (opRun z dev.variant dev.p dev.mu dev.sigma c a 1
        (seedRng (c % 2 ^ 32))).1 := by
  have hlen : (opRun z dev.variant dev.p dev.mu dev.sigma c a 1
      (seedRng (c % 2 ^ 32))).1.length = a.length + popcount a :=
    opRun_length z dev.variant dev.p dev.mu dev.sigma c a 1 (seedRng (c % 2 ^ 32))
  rw [sampleTrace, opRun_append, ← hlen, List.take_left]

lemma sampleTrace_take (z : ℕ → ℕ → ℚ) (dev : Device) (c : ℕ) (k : ℕ)
    (d : List ℕ) (hk : k ≤ d.length) :
    (sampleTrace z dev c d).take (k + popcount (d.take k)) =
      (opRun z dev.variant dev.p dev.mu dev.sigma c (d.take k) 1
        (seedRng (c % 2 ^ 32))).1 := by
  have h := sampleTrace_take_append z dev c (d.take k) (d.drop k)
  rw [List.take_append_drop, List.length_take, min_eq_left hk] at h
  exact h

/-- C2: for a fixed challenge and two exponent bit-vectors that agree on
bits `0..i`, the sequence of noise samples drawn during `group_op` — and
hence the partial `delay` sum — up to and including step `i`'s conditional
sub-step (that is, the first `(i+1) + popcount(bits 0..i)` samples) is
identical between the two vectors. -/
theorem sampleTrace_common_start (z : ℕ → ℕ → ℚ) (dev : Device) (c i : ℕ)
    (d1 d2 : List ℕ) (h1 : i < d1.length) (h2 : i < d2.length)
    (hag : d1.take (i + 1) = d2.take (i + 1)) :
    (sampleTrace z dev c d1).take (i + 1 + popcount (d1.take (i + 1))) =
      (sampleTrace z dev c d2).take (i + 1 + popcount (d1.take (i + 1))) ∧
    ((sampleTrace z dev c d1).take (i + 1 + popcount (d1.take (i + 1)))).sum =
      ((sampleTrace z dev c d2).take (i + 1 + popcount (d1.take (i + 1)))).sum := by
  have e1 := sampleTrace_take z dev c (i + 1) d1 h1
  have e2 := sampleTrace_take z dev c (i + 1) d2 h2
  rw [← hag] at e2
  have : (sampleTrace z dev c d1).take (i + 1 + popcount (d1.take (i + 1))) =
      (sampleTrace z dev c d2).take (i + 1 + popcount (d1.take (i + 1))) :=
    e1.trans e2.symm
  exact ⟨this, by rw [this]⟩

/-- A concrete deviate stream: every draw is 0 (used to instantiate the
universally quantified stream at concrete inputs). -/
def zZero : ℕ → ℕ → ℚ := fun _ _ => 0

/-- A concrete deviate stream: the k-th draw after seed s is `s + k`. -/
def zAff : ℕ → ℕ → ℚ := fun s k => (s : ℚ) + (k : ℚ)

/-- Witness for C2 at concrete inputs: `d1 = [1,0,1]` and `d2 = [1,0,0]`
agree on bits `0..1`, so their first `2 + popcount([1,0]) = 3` samples
(and the sums of those samples) coincide. -/
theorem sampleTrace_common_start_witness :
    (sampleTrace zAff ⟨61, 8, 1000, 50, Variant.doubleAndAdd⟩ 3 [1, 0, 1]).take 3 =
      (sampleTrace zAff ⟨61, 8, 1000, 50, Variant.doubleAndAdd⟩ 3 [1, 0, 0]).take 3 :=
  (sampleTrace_common_start zAff ⟨61, 8, 1000, 50, Variant.doubleAndAdd⟩ 3 1
    [1, 0, 1] [1, 0, 0] (by decide) (by decide) (by decide)).1

/-- C5 counterexample: the claim quantifies over every mean `mu`, and at
`mu = -1`, `sigma = 0` the elapsed value of `double_and_add` on challenge
1 and exponent `[1]` is `-2 < 0`, so `elapsed` is not a real number ≥ 0
for every parameter choice. -/
theorem group_op_negative_at_neg_mu :
    group_op zZero ⟨61, 8, -1, 0, Variant.doubleAndAdd⟩ 1 [1] < 0 := by
  norm_num [group_op, double_and_add, opRun, normalDraw, seedRng, stepRes,
    condRes, zZero]

/-- C5 amended: the elapsed value is the sum of the drawn
`Normal(mu, sigma)` samples, so it is ≥ 0 whenever every drawable sample
`mu + sigma * z s n` is ≥ 0 (in particular whenever `sigma = 0` and
`mu ≥ 0`); for unrestricted `mu`, `sigma` it can be negative. -/
theorem group_op_nonneg_of_samples_nonneg (z : ℕ → ℕ → ℚ) (dev : Device)
    (c : ℕ) (d : List ℕ) (h : ∀ s n, 0 ≤ dev.mu + dev.sigma * z s n) :
    0 ≤ group_op z dev c d := by
  rw [group_op_eq_trace_sum]
  apply List.sum_nonneg
  intro x hx
  rw [sampleTrace] at hx
  obtain ⟨s, n, rfl⟩ := opRun_mem z dev.variant dev.p dev.mu dev.sigma c d _ _ _ hx
  exact h s n

/-- Witness for the amended C5 at the script's default noise parameters
`mu = 1000`, `sigma = 50` and the all-zero deviate stream. -/
theorem group_op_nonneg_witness :
    0 ≤ group_op zZero ⟨61, 8, 1000, 50, Variant.doubleAndAdd⟩ 3 [1, 0, 1] :=
  group_op_nonneg_of_samples_nonneg zZero ⟨61, 8, 1000, 50, Variant.doubleAndAdd⟩
    3 [1, 0, 1] (by intro s n; norm_num [zZero])

/-- `Device.double_and_add` as a state-threading function over the
process-global numpy generator: it receives the generator state `g` at
call entry and returns the delay together with the state at exit.  The
method's first generator operation, `np.random.seed(m % 2**32)` (line
50), overwrites the incoming state. -/
def double_and_add_run (z : ℕ → ℕ → ℚ) (dev : Device) (m : ℕ) (d : List ℕ)
    (_entry : Rng) : ℚ × Rng :=
  let g := seedRng (m % 2 ^ 32)
  let out := opRun z Variant.doubleAndAdd dev.p dev.mu dev.sigma m d 1 g
  (out.1.sum, out.2.2)

/-- `Device.square_and_mul` as a state-threading function, as above. -/
def square_and_mul_run (z : ℕ → ℕ → ℚ) (dev : Device) (m : ℕ) (d : List ℕ)
    (_entry : Rng) : ℚ × Rng :=
  let g := seedRng (m % 2 ^ 32)
  let out := opRun z Variant.squareAndMul dev.p dev.mu dev.sigma m d 1 g
  (out.1.sum, out.2.2)

/-- `AttackerDevice.sign(c, d)` (lines 77-79) as a state-threading
function on the global generator. -/
def sign_run (z : ℕ → ℕ → ℚ) (dev : Device) (c : ℕ) (d : List ℕ)
    (g : Rng) : ℚ × Rng :=
  match dev.variant with
  | .doubleAndAdd => double_and_add_run z dev c d g
  | .squareAndMul => square_and_mul_run z dev c d g

/-- `AttackerDevice.sign(c, d)` (lines 77-79): delegates to the device's
group operation. -/
def attackerSign (z : ℕ → ℕ → ℚ) (dev : Device) (c : ℕ) (d : List ℕ) : ℚ :=
  group_op z dev c d

/-- C6: the timing returned by a `sign` call depends only on its
arguments: run against any two global-generator states `g1`, `g2` at call
entry (i.e. after any earlier `sign` invocations), the call returns the
same value, namely the pure `attackerSign` of its arguments — the method
reseeds the generator on entry, so no ordering dependency exists between
separate `sign` invocations. -/
theorem sign_run_state_independent (z : ℕ → ℕ → ℚ) (dev : Device) (c : ℕ)
    (d : List ℕ) (g1 g2 : Rng) :
    (sign_run z dev c d g1).1 = (sign_run z dev c d g2).1 ∧
    (sign_run z dev c d g1).1 = attackerSign z dev c d := by
  cases hv : dev.variant <;>
    simp [sign_run, double_and_add_run, square_and_mul_run, attackerSign,
      group_op, double_and_add, square_and_mul, hv]

/-- `VictimDevice.sign(c)` (lines 92-93): the group operation on the
device's secret exponent. -/
def victimSign (z : ℕ → ℕ → ℚ) (dev : Device) (secret : List ℕ) (c : ℕ) : ℚ :=
  group_op z dev c secret

/-- Per-round accumulators of `main` (lines 124-127): running sum and sum
of squares of the timing residuals for hypothesis 0 and hypothesis 1. -/
structure RoundAcc where
  sum0 : ℚ
  sum0_square : ℚ
  sum1 : ℚ
  sum1_square : ℚ

/-- One trial of a bit round (`main`, lines 130-142): with challenge `c`,
measure the victim, query the attacker with the working vector ending in
0 and then in 1, and accumulate both residuals. -/
def trialUpdate (z : ℕ → ℕ → ℚ) (dev : Device) (secret : List ℕ)
    (pfx : List ℕ) (c : ℕ) (a : RoundAcc) : RoundAcc :=
  let t_vic := victimSign z dev secret c
  let t_att0 := attackerSign z dev c (pfx ++ [0])
  let t_att1 := attackerSign z dev c (pfx ++ [1])
  ⟨a.sum0 + (t_vic - t_att0), a.sum0_square + (t_vic - t_att0) ^ 2,
   a.sum1 + (t_vic - t_att1), a.sum1_square + (t_vic - t_att1) ^ 2⟩

/-- The `N` trials of round `i` (`main`, lines 129-142), starting from
zeroed accumulators; `chal i j` is the challenge `random.randint` draws
at round `i`, trial `j`. -/
def roundAcc (z : ℕ → ℕ → ℚ) (dev : Device) (secret : List ℕ)
    (chal : ℕ → ℕ → ℕ) (i N : ℕ) (pfx : List ℕ) : RoundAcc :=
  (List.range N).foldl (fun a j => trialUpdate z dev secret pfx (chal i j) a)
    ⟨0, 0, 0, 0⟩

/-- Sample variance from the accumulators (lines 144-145):
`sum_square/N - (sum/N)**2`. -/
def varOf (s q : ℚ) (N : ℕ) : ℚ := q / N - (s / N) ^ 2

/-- `var0` of round `i` (line 144). -/
def roundVar0 (z : ℕ → ℕ → ℚ) (dev : Device) (secret : List ℕ)
    (chal : ℕ → ℕ → ℕ) (i N : ℕ) (pfx : List ℕ) : ℚ :=
  varOf (roundAcc z dev secret chal i N pfx).sum0
    (roundAcc z dev secret chal i N pfx).sum0_square N

/-- `var1` of round `i` (line 145). -/
def roundVar1 (z : ℕ → ℕ → ℚ) (dev : Device) (secret : List ℕ)
    (chal : ℕ → ℕ → ℕ) (i N : ℕ) (pfx : List ℕ) : ℚ :=
  varOf (roundAcc z dev secret chal i N pfx).sum1
    (roundAcc z dev secret chal i N pfx).sum1_square N

/-- The bit finalized at the end of round `i` (lines 146-149):
0 when `var0 < var1`, else 1. -/
def roundBit (z : ℕ → ℕ → ℚ) (dev : Device) (secret : List ℕ)
    (chal : ℕ → ℕ → ℕ) (i N : ℕ) (pfx : List ℕ) : ℕ :=
  if roundVar0 z dev secret chal i N pfx < roundVar1 z dev secret chal i N pfx
  then 0 else 1

/-- The `recovered` list of `main` after `i` completed rounds (lines
122-149): starts empty, and each round appends one cell
(`recovered.append(0)`, line 128) that the round's decision finalizes.
During round `i` the trial queries use the finalized prefix (`recoverBits
... i`) with position `i` set to the trial hypothesis. -/
def recoverBits (z : ℕ → ℕ → ℚ) (dev : Device) (secret : List ℕ)
    (chal : ℕ → ℕ → ℕ) (N : ℕ) : ℕ → List ℕ
  | 0 => []
  | i + 1 =>
    recoverBits z dev secret chal N i ++
      [roundBit z dev secret chal i N (recoverBits z dev secret chal N i)]

lemma recoverBits_length (z : ℕ → ℕ → ℚ) (dev : Device) (secret : List ℕ)
    (chal : ℕ → ℕ → ℕ) (N : ℕ) :
    ∀ i, (recoverBits z dev secret chal N i).length = i := by
  intro i
  induction i with
  | zero => simp [recoverBits]
  | succ i ih => simp [recoverBits, ih]

/-- The script's fixed devices for concrete instantiations: `keylen = 64`
in `main`, here the spec's small scenario `keylen = 8` with `p = 61`,
`mu = 1000`, `sigma = 50`. -/
def dev0 : Device := ⟨61, 8, 1000, 50, Variant.doubleAndAdd⟩

/-- A concrete challenge schedule: every trial uses challenge 1. -/
def chal0 : ℕ → ℕ → ℕ := fun _ _ => 1

/-- A concrete 8-bit secret (the spec's end-to-end scenario secret). -/
def secret0 : List ℕ := [1, 0, 1, 1, 0, 0, 1, 0]

/-- C3 counterexample: in the round for bit 0 the engine's working
hypothesis vector (finalized prefix plus the trial hypothesis cell) has
length 1, not `keylen = 8` — the claim that the vector has length
`keylen` with placeholder zeros above position `i` fails on the code,
which grows `recovered` by one `append` per round. -/
theorem roundVector_length_ne_keylen :
    ((recoverBits zZero dev0 secret0 chal0 4000 0) ++ [0]).length ≠
      dev0.keylen := by
  decide

/-- C3 (amended): during the recovery round for bit position `i` the
engine's working vector is the finalized prefix of length `i` plus the
trial hypothesis at position `i` — total length `i + 1`; positions
strictly greater than `i` do not exist in the vector (no keylen-length
placeholder tail), and position `i` holds the trial hypothesis `b`. -/
theorem roundVector_shape (z : ℕ → ℕ → ℚ) (dev : Device) (secret : List ℕ)
    (chal : ℕ → ℕ → ℕ) (N i b : ℕ) :
    (recoverBits z dev secret chal N i).length = i ∧
    (recoverBits z dev secret chal N i ++ [b]).length = i + 1 ∧
    (recoverBits z dev secret chal N i ++ [b]).drop i = [b] := by
  exact ⟨recoverBits_length z dev secret chal N i,
    by simp [recoverBits_length],
    List.drop_left' (recoverBits_length z dev secret chal N i)⟩

/-- C4: after the trials of round `i` the engine finalizes the bit to 0
when `var0 < var1` and to 1 otherwise; in particular an exact tie
`var0 = var1` deterministically finalizes the bit to 1. -/
theorem roundBit_decision (z : ℕ → ℕ → ℚ) (dev : Device) (secret : List ℕ)
    (chal : ℕ → ℕ → ℕ) (i N : ℕ) (pfx : List ℕ) :
    (roundVar0 z dev secret chal i N pfx < roundVar1 z dev secret chal i N pfx →
      roundBit z dev secret chal i N pfx = 0) ∧
    (roundVar1 z dev secret chal i N pfx ≤ roundVar0 z dev secret chal i N pfx →
      roundBit z dev secret chal i N pfx = 1) ∧
    (roundVar0 z dev secret chal i N pfx = roundVar1 z dev secret chal i N pfx →
      roundBit z dev secret chal i N pfx = 1) := by
  refine ⟨fun h => by simp [roundBit, h],
    fun h => by simp [roundBit, not_lt.2 h],
    fun h => by simp [roundBit, h]⟩

/-- A zero-noise device (`mu = 0`, `sigma = 0`) on which every timing is
0, producing an exact variance tie. -/
def devTie : Device := ⟨61, 8, 0, 0, Variant.doubleAndAdd⟩

/-- Witness for C4: on the zero-noise device all residuals vanish, both
variances are 0 (an exact tie), and the round finalizes the bit to 1. -/
theorem roundBit_decision_witness :
    roundBit zZero devTie [1, 0] chal0 0 1 [] = 1 :=
  (roundBit_decision zZero devTie [1, 0] chal0 0 1 []).2.2 (by
    simp [roundVar0, roundVar1, roundAcc, trialUpdate, victimSign,
      attackerSign, group_op, double_and_add, opRun, normalDraw, seedRng,
      stepRes, condRes, zZero, devTie, chal0, varOf])

/-- Recovery-quality classes reported by `VictimDevice.check`
(lines 95-102); `PART` models the spec's PARTIAL class. -/
inductive Classification
  | FULL
  | PART
  | LOW
deriving DecidableEq

/-- Matching positions of `VictimDevice.check` (line 96):
`sum([int(self.secret[i] == d[i]) for i in range(self.keylen)])`.
The Python indexing is total at every call site (both vectors have
length `keylen`); it is modelled with `getD`. -/
def matchCount (keylen : ℕ) (secret d : List ℕ) : ℕ :=
  ((List.range keylen).map
    (fun i => if secret.getD i 0 = d.getD i 0 then 1 else 0)).sum

/-- `VictimDevice.check(d)` (lines 95-102): classify the matching
fraction `f = matches / keylen` — LOW below 0.75, PARTIAL from 0.75 up
to (excluding) 1, FULL at 1. -/
def check (keylen : ℕ) (secret d : List ℕ) : Classification :=
  let f : ℚ := (matchCount keylen secret d : ℚ) / keylen
  if f < 3 / 4 then .LOW else if f < 1 then .PART else .FULL

/-- C7: `check` maps the matching fraction `f` to LOW when `f < 0.75`,
to PARTIAL when `0.75 ≤ f < 1` (the boundary 0.75 inclusive to PARTIAL),
and to FULL when `f = 1`. -/
theorem check_thresholds (k : ℕ) (secret d : List ℕ) :
    ((matchCount k secret d : ℚ) / k < 3 / 4 → check k secret d = .LOW) ∧
    (3 / 4 ≤ (matchCount k secret d : ℚ) / k →
      (matchCount k secret d : ℚ) / k < 1 → check k secret d = .PART) ∧
    ((matchCount k secret d : ℚ) / k = 1 → check k secret d = .FULL) := by
  refine ⟨fun h => by simp [check, h], fun h1 h2 => ?_, fun h => ?_⟩
  · simp [check, h2, not_lt.2 h1]
  · simp only [check, h]
    norm_num

/-- Witness for C7 at `keylen = 4`, secret `[1,0,1,1]`: fraction 1/4
classifies LOW, fraction 3/4 (the boundary) PARTIAL, fraction 1 FULL. -/
theorem check_thresholds_witness :
    check 4 [1, 0, 1, 1] [0, 1, 0, 1] = .LOW ∧
    check 4 [1, 0, 1, 1] [1, 0, 1, 0] = .PART ∧
    check 4 [1, 0, 1, 1] [1, 0, 1, 1] = .FULL :=
  ⟨(check_thresholds 4 [1, 0, 1, 1] [0, 1, 0, 1]).1 (by
      norm_num [matchCount, List.range_succ]),
   (check_thresholds 4 [1, 0, 1, 1] [1, 0, 1, 0]).2.1 (by
      norm_num [matchCount, List.range_succ]) (by
      norm_num [matchCount, List.range_succ]),
   (check_thresholds 4 [1, 0, 1, 1] [1, 0, 1, 1]).2.2 (by
      norm_num [matchCount, List.range_succ])⟩

/-- SecretKeyGenerator (`VictimDevice.__init__`, lines 86-90):
`np.random.seed(secret_seed)` then
`[1] + [int(np.random.rand() <= 0.5) for i in range(keylen - 1)]`,
with `u seed i` the i-th uniform deviate drawn after seeding. -/
def generate (u : ℕ → ℕ → ℚ) (seed keylen : ℕ) : List ℕ :=
  1 :: (List.range (keylen - 1)).map (fun i => if u seed i ≤ 1 / 2 then 1 else 0)

/-- C8: for every key length ≥ 1 (every supported key length) the secret
generator returns a sequence of exactly `keylen` bits in {0, 1} whose
bit 0 (most significant) is 1, and two calls with the same
`(seed, keylen)` produce identical output (the generator is a
deterministic function of the reseeded stream). -/
theorem generate_spec (u : ℕ → ℕ → ℚ) (seed keylen : ℕ) (h : 1 ≤ keylen) :
    (generate u seed keylen).length = keylen ∧
    (generate u seed keylen).getD 0 0 = 1 ∧
    (∀ b ∈ generate u seed keylen, b = 0 ∨ b = 1) ∧
    generate u seed keylen = generate u seed keylen := by
  refine ⟨?_, rfl, ?_, rfl⟩
  · simp only [generate, List.length_cons, List.length_map, List.length_range]
    omega
  · intro b hb
    simp only [generate, List.mem_cons, List.mem_map] at hb
    rcases hb with rfl | ⟨i, _, rfl⟩
    · right; rfl
    · by_cases hc : u seed i ≤ 1 / 2
      · right; rw [if_pos hc]
      · left; rw [if_neg hc]

/-- A concrete uniform-deviate stream: every draw is 0. -/
def uZero : ℕ → ℕ → ℚ := fun _ _ => 0

/-- Witness for C8 at the script's built-in seed and `keylen = 8`. -/
theorem generate_spec_witness :
    1 ≤ 8 ∧
    ((generate uZero 123312834 8).length = 8 ∧
     (generate uZero 123312834 8).getD 0 0 = 1 ∧
     (∀ b ∈ generate uZero 123312834 8, b = 0 ∨ b = 1) ∧
     generate uZero 123312834 8 = generate uZero 123312834 8) :=
  ⟨by norm_num, generate_spec uZero 123312834 8 (by norm_num)⟩

/-- The `primes` table (lines 26-32), keyed by key length.  A Python
dict lookup `primes[keylen]` raises `KeyError` on a missing key,
modelled as `none`. -/
def primesTable (k : ℕ) : Option ℕ :=
  if k = 8 then some 61
  else if k = 16 then some 53759
  else if k = 32 then some 2675797811
  else if k = 64 then some 8642890157798231327
  else if k = 128 then some 249018405283997733407297959207515566297
  else none

/-- `Device.__init__` (lines 35-42): its first statement is
`self.p = primes[keylen]`, so construction fails (KeyError) before any
simulation step when the lookup misses, and otherwise yields the device
with the tabulated prime as modulus and double-and-add as the chosen
group operation. -/
def deviceInit (keylen : ℕ) (mu sigma : ℚ) : Option Device :=
  (primesTable keylen).map (fun p => ⟨p, keylen, mu, sigma, .doubleAndAdd⟩)

/-- C9: constructing a Device with a key length outside
{8, 16, 32, 64, 128} fails at construction (no device is produced);
for a key length with a table entry the construction succeeds and the
modulus is the tabulated prime. -/
theorem deviceInit_spec (k : ℕ) (mu sigma : ℚ) :
    (k ≠ 8 ∧ k ≠ 16 ∧ k ≠ 32 ∧ k ≠ 64 ∧ k ≠ 128 →
      deviceInit k mu sigma = none) ∧
    (∀ q, primesTable k = some q →
      deviceInit k mu sigma = some ⟨q, k, mu, sigma, .doubleAndAdd⟩) := by
  constructor
  · rintro ⟨h8, h16, h32, h64, h128⟩
    simp [deviceInit, primesTable, h8, h16, h32, h64, h128]
  · intro q hq
    simp [deviceInit, hq]

/-- Witness for C9: `keylen = 7` has no table entry so construction
fails; `keylen = 8` succeeds with modulus 61. -/
theorem deviceInit_spec_witness :
    deviceInit 7 1000 50 = none ∧
    deviceInit 8 1000 50 = some ⟨61, 8, 1000, 50, .doubleAndAdd⟩ :=
  ⟨(deviceInit_spec 7 1000 50).1 (by decide),
   (deviceInit_spec 8 1000 50).2 61 (by decide)⟩

/-- C10: `AttackerDevice.sign(c, d)` is defined for every hypothesis
vector `d` of any length `n` — its timing is the sum of exactly
`n + popcount(d)` noise samples, the loop ranging over `len(d)` with the
device's `keylen` playing no role — and the recovery engine's query
vector in the round for bit `i` has length `i + 1`. -/
theorem attackerSign_any_length (z : ℕ → ℕ → ℚ) (dev : Device)
    (secret : List ℕ) (chal : ℕ → ℕ → ℕ) (N c i b : ℕ) (d : List ℕ) :
    attackerSign z dev c d = (sampleTrace z dev c d).sum ∧
    (sampleTrace z dev c d).length = d.length + popcount d ∧
    (recoverBits z dev secret chal N i ++ [b]).length = i + 1 := by
  refine ⟨group_op_eq_trace_sum z dev c d, ?_, by simp [recoverBits_length]⟩
  rw [sampleTrace]
  exact opRun_length z dev.variant dev.p dev.mu dev.sigma c d 1
    (seedRng (c % 2 ^ 32))

end TimingAttack
